import Mathlib

/-!
# SteelBoy cutting-stock core: shallow embedding and verification

Embedding of the algorithmic core of `SteelBoy.py`: the item expander and
best-fit packer (`best_fit_cutting_stock`), the pattern reporter
(`generate_pattern_details_table`) and the aggregate reporter
(`generate_final_report`).  Lengths are integers (the CSV parser produces
`int` lengths); the kerf, stock length and all derived quantities are
modelled as rationals, the exact abstraction of the Python floats used by
the source.  The fallible report function (which indexes `parts[0]`)
returns an `Option`.
-/

namespace SteelBoy

/-- A parsed part record `(profile, length, demand, weight_per_m)` as built by
`read_csv_parts`. -/
structure PartRequest where
  profile : String
  length : ℤ
  demand : ℕ
  weight_per_m : ℚ
deriving DecidableEq, Repr, Inhabited

/-- One physical piece to cut: a `(profile, length)` pair. -/
structure CutPiece where
  profile : String
  length : ℤ
deriving DecidableEq, Repr, Inhabited

/-- A bin (cutting pattern instance): the dict `{'remaining': …, 'cuts': […]}`
of the source. -/
structure Bin where
  remaining : ℚ
  cuts : List CutPiece
deriving DecidableEq, Repr, Inhabited

/-- Item expansion (`items.extend([(profile, length)] * demand)` for each part,
in part order). -/
def expandItems (parts : List PartRequest) : List CutPiece :=
  parts.flatMap fun p => List.replicate p.demand ⟨p.profile, p.length⟩

/-- The descending-length comparison used by
`items.sort(key=lambda x: x[1], reverse=True)`: `a` goes before `b` when
`b.length ≤ a.length`. -/
def lenGE (a b : CutPiece) : Prop := b.length ≤ a.length

instance : DecidableRel lenGE := fun a b => inferInstanceAs (Decidable (b.length ≤ a.length))

instance : IsTotal CutPiece lenGE :=
  ⟨fun a b => show b.length ≤ a.length ∨ a.length ≤ b.length from le_total b.length a.length⟩

instance : IsTrans CutPiece lenGE := ⟨fun _ _ _ h1 h2 => le_trans h2 h1⟩

/-- `items.sort(key=lambda x: x[1], reverse=True)`: a stable sort by length
descending, modelled by stable insertion sort. -/
def sortItemsDesc (items : List CutPiece) : List CutPiece :=
  List.insertionSort lenGE items

/-- The inner loop of `best_fit_cutting_stock` over the open bins: starting
from the accumulated best candidate (`best_bin = None`, `min_remaining = inf`
initially, modelled as `none`), scan the bins left to right; a bin whose
`remaining` is at least the effective length becomes the new candidate exactly
when its remaining-after value is strictly below the current minimum.  Returns
the index of the chosen bin and its remaining-after value. -/
def scanBest (eff : ℚ) (idx : ℕ) (best : Option (ℕ × ℚ)) : List Bin → Option (ℕ × ℚ)
  | [] => best
  | b :: bs =>
    if eff ≤ b.remaining then
      match best with
      | none => scanBest eff (idx + 1) (some (idx, b.remaining - eff)) bs
      | some (j, m) =>
        if b.remaining - eff < m then
          scanBest eff (idx + 1) (some (idx, b.remaining - eff)) bs
        else
          scanBest eff (idx + 1) (some (j, m)) bs
    else
      scanBest eff (idx + 1) best bs

/-- Replace the `i`-th bin by `f` applied to it (the in-place mutation
`best_bin['remaining'] -= …; best_bin['cuts'].append(…)` of the source,
expressed positionally). -/
def updAt (i : ℕ) (f : Bin → Bin) : List Bin → List Bin
  | [] => []
  | b :: bs =>
    match i with
    | 0 => f b :: bs
    | n + 1 => b :: updAt n f bs

/-- One iteration of the outer loop of `best_fit_cutting_stock`: place a single
item into the best-fitting open bin, or open a new bin at the end of the list
when no bin fits. -/
def placeItem (stock_length cut_kerf : ℚ) (bins : List Bin) (item : CutPiece) : List Bin :=
  let effective_length : ℚ := (item.length : ℚ) + cut_kerf
  match scanBest effective_length 0 none bins with
  | some (i, _) =>
    updAt i (fun b => { remaining := b.remaining - effective_length,
                        cuts := b.cuts ++ [item] }) bins
  | none =>
    bins ++ [{ remaining := stock_length - effective_length, cuts := [item] }]

/-- `best_fit_cutting_stock(parts, stock_length, cut_kerf)`: expand the parts
into items, sort by length descending (stable), then place each item in turn. -/
def best_fit_cutting_stock (parts : List PartRequest) (stock_length : ℚ)
    (cut_kerf : ℚ) : List Bin :=
  (sortItemsDesc (expandItems parts)).foldl (placeItem stock_length cut_kerf) []

/-- The row `[pattern_name, pattern_length, cut_details, remaining_waste]` of
`generate_pattern_details_table`. -/
structure PatternRow where
  patternName : String
  patternLength : ℚ
  cutDetails : String
  remainingWaste : ℚ
deriving DecidableEq, Repr, Inhabited

/-- `generate_pattern_details_table(bins, stock_length)`: one row per bin,
numbered from 1; the cut-details field joins one `"1x profile(lengthmm)"`
fragment per cut with `" + "`. -/
def generate_pattern_details_table (bins : List Bin) (stock_length : ℚ) :
    List PatternRow :=
  bins.enum.map fun p =>
    { patternName := "Pattern " ++ toString (p.1 + 1),
      patternLength := stock_length - p.2.remaining,
      cutDetails := String.intercalate " + "
        (p.2.cuts.map fun c => "1x " ++ c.profile ++ "(" ++ toString c.length ++ "mm)"),
      remainingWaste := p.2.remaining }

/-- The row produced by `generate_final_report`. -/
structure AggregateRow where
  profile : String
  totalStocksUsed : ℕ
  stockLength : ℚ
  weightPerM : ℚ
  totalStockConsumed_m : ℚ
  effectiveUsage_m : ℚ
  waste_m : ℚ
  totalOrderWeight_kg : ℚ
  effectiveWeight_kg : ℚ
  wasteWeight_kg : ℚ
deriving DecidableEq, Repr, Inhabited

/-- `effective_usage_mm = sum(length * demand for _, length, demand, _ in parts)`. -/
def effectiveUsageMm (parts : List PartRequest) : ℚ :=
  (parts.map fun p => (p.length : ℚ) * p.demand).sum

/-- `sum(demand for _, _, demand, _ in parts)`. -/
def totalDemand (parts : List PartRequest) : ℕ :=
  (parts.map fun p => p.demand).sum

/-- `generate_final_report(parts, bins, stock_length, cut_kerf, profile)`.
The source indexes `parts[0]` unconditionally, so the call raises `IndexError`
on an empty parts group; this is modelled by returning `none`.  The `profile`
argument defaults to `None` in the source and falls back to `parts[0][0]` when
falsy (`None` or the empty string). -/
def generate_final_report (parts : List PartRequest) (bins : List Bin)
    (stock_length : ℚ) (cut_kerf : ℚ) (profile : Option String) :
    Option AggregateRow :=
  match parts with
  | [] => none
  | p0 :: _ =>
    let total_stocks_used := bins.length
    let total_stock_consumed_mm : ℚ := (total_stocks_used : ℚ) * stock_length
    let effective_usage_mm := effectiveUsageMm parts
    let waste_mm := total_stock_consumed_mm - effective_usage_mm
      - cut_kerf * (totalDemand parts : ℚ)
    let total_stock_consumed_m := total_stock_consumed_mm / 1000
    let effective_usage_m := effective_usage_mm / 1000
    let waste_m := waste_mm / 1000
    let weight_per_m := p0.weight_per_m
    some
      { profile := match profile with
          | some s => if s = "" then p0.profile else s
          | none => p0.profile,
        totalStocksUsed := total_stocks_used,
        stockLength := stock_length,
        weightPerM := weight_per_m,
        totalStockConsumed_m := total_stock_consumed_m,
        effectiveUsage_m := effective_usage_m,
        waste_m := waste_m,
        totalOrderWeight_kg := if 0 < weight_per_m then total_stock_consumed_m * weight_per_m else 0,
        effectiveWeight_kg := if 0 < weight_per_m then effective_usage_m * weight_per_m else 0,
        wasteWeight_kg := if 0 < weight_per_m then waste_m * weight_per_m else 0 }

/-! ## Characterizing the best-fit bin selection

`scanBest` is an accumulator loop; for reasoning we relate it to a structural
recursion `bestFitRec` via a left-biased candidate merge. -/

/-- Left-biased merge of two candidates `(index, remaining_after)`: the right
candidate wins only with a strictly smaller remaining-after value (the `<`
of the source loop). -/
def mergeCand : Option (ℕ × ℚ) → Option (ℕ × ℚ) → Option (ℕ × ℚ)
  | none, y => y
  | some p, none => some p
  | some p, some q => if q.2 < p.2 then some q else some p

/-- Shift a candidate index by `k`. -/
def shiftCand (k : ℕ) : Option (ℕ × ℚ) → Option (ℕ × ℚ)
  | none => none
  | some p => some (p.1 + k, p.2)

/-- Structural-recursion version of the best-fit scan. -/
def bestFitRec (eff : ℚ) : List Bin → Option (ℕ × ℚ)
  | [] => none
  | b :: bs =>
    if eff ≤ b.remaining then
      mergeCand (some (0, b.remaining - eff)) (shiftCand 1 (bestFitRec eff bs))
    else
      shiftCand 1 (bestFitRec eff bs)

/-- The specification of the source's bin-selection loop: the chosen bin fits,
its remaining-after value is the reported one and is minimal among all fitting
bins, and every fitting bin strictly earlier in the list has a strictly larger
remaining-after value (the chosen bin is the earliest minimum). -/
def IsFirstMinFit (bins : List Bin) (eff : ℚ) (i : ℕ) (ra : ℚ) : Prop :=
  ∃ hi : i < bins.length,
    eff ≤ bins[i].remaining ∧
    ra = bins[i].remaining - eff ∧
    (∀ j (hj : j < bins.length), eff ≤ bins[j].remaining → ra ≤ bins[j].remaining - eff) ∧
    (∀ j (hj : j < bins.length), j < i → eff ≤ bins[j].remaining → ra < bins[j].remaining - eff)

/-- All cuts across a list of bins, in bin order. -/
def allCuts (bins : List Bin) : List CutPiece :=
  bins.flatMap fun b => b.cuts

/-- The effective length consumed by a list of cuts:
`sum(length + kerf over the cuts)`. -/
def effSum (kerf : ℚ) (cuts : List CutPiece) : ℚ :=
  (cuts.map fun c => (c.length : ℚ) + kerf).sum

/-- The remaining-capacity bookkeeping invariant: `remaining` always equals
the stock length minus the effective length of the assigned cuts. -/
def RemSpec (stock kerf : ℚ) (bins : List Bin) : Prop :=
  ∀ b ∈ bins, b.remaining = stock - effSum kerf b.cuts

/-- Non-negative remaining capacity is preserved when the placed item fits into
fresh stock. -/
def NonnegRem (bins : List Bin) : Prop := ∀ b ∈ bins, 0 ≤ b.remaining

/-- Structural invariant for the over-length analysis: every bin is non-empty,
holds only positive-length cuts, respects the remaining-capacity formula, and
a bin holding an over-length cut holds exactly that single cut. -/
def OverInv (stock kerf : ℚ) (bins : List Bin) : Prop :=
  ∀ b ∈ bins, b.cuts ≠ [] ∧ (∀ c ∈ b.cuts, 0 < c.length) ∧
    b.remaining = stock - effSum kerf b.cuts ∧
    (∀ c ∈ b.cuts, stock < (c.length : ℚ) + kerf → b.cuts = [c])

/-- Every bin ever created holds at least one cut. -/
def CutsNonempty (bins : List Bin) : Prop := ∀ b ∈ bins, b.cuts ≠ []

/-- Modelled from the spec: the grouping strategy the spec describes for the
cut-details column — count runs of consecutive identical `(profile, length)`
entries and render each run once, annotated with its count
(e.g. `"2x Profile(3000mm)"`).  The source does not implement this; the
definition exists only to compare the spec's wording against the code. -/
def specGroupedCutDetails (cuts : List CutPiece) : String :=
  String.intercalate " + "
    ((cuts.splitBy fun a b => a == b).map fun g =>
      toString g.length ++ "x " ++
        match g with
        | [] => ""
        | c :: _ => c.profile ++ "(" ++ toString c.length ++ "mm)")

theorem mergeCand_none_right (x : Option (ℕ × ℚ)) : mergeCand x none = x := by
  cases x <;> rfl

theorem shiftCand_mergeCand (k : ℕ) (x y : Option (ℕ × ℚ)) :
    shiftCand k (mergeCand x y) = mergeCand (shiftCand k x) (shiftCand k y) := by
  cases x with
  | none => cases y <;> rfl
  | some p =>
    cases y with
    | none => rfl
    | some q => by_cases h : q.2 < p.2 <;> simp [mergeCand, shiftCand, h]

theorem shiftCand_shiftCand (k : ℕ) (x : Option (ℕ × ℚ)) :
    shiftCand k (shiftCand 1 x) = shiftCand (k + 1) x := by
  cases x with
  | none => rfl
  | some p =>
    simp only [shiftCand, Option.some.injEq, Prod.mk.injEq]
    exact ⟨by omega, trivial⟩

theorem shiftCand_zero (x : Option (ℕ × ℚ)) : shiftCand 0 x = x := by
  cases x <;> simp [shiftCand]

theorem mergeCand_assoc (x y z : Option (ℕ × ℚ)) :
    mergeCand (mergeCand x y) z = mergeCand x (mergeCand y z) := by
  cases x with
  | none => rfl
  | some p =>
    cases y with
    | none => rfl
    | some q =>
      cases z with
      | none => simp [mergeCand_none_right]
      | some s =>
        by_cases h1 : q.2 < p.2 <;> by_cases h2 : s.2 < q.2 <;>
          simp only [mergeCand, h1, h2, if_true, if_false, reduceIte] <;>
            split_ifs <;> first | rfl | (exfalso; linarith)

/-- The source's accumulator loop computes exactly the merge of the incoming
candidate with the structural best-fit scan (indices shifted by `idx`). -/
theorem scanBest_eq (eff : ℚ) :
    ∀ (bs : List Bin) (idx : ℕ) (best : Option (ℕ × ℚ)),
      scanBest eff idx best bs = mergeCand best (shiftCand idx (bestFitRec eff bs)) := by
  intro bs
  induction bs with
  | nil => intro idx best; simp [scanBest, bestFitRec, shiftCand, mergeCand_none_right]
  | cons b bs ih =>
    intro idx best
    by_cases hc : eff ≤ b.remaining
    · have hstep :
          scanBest eff idx best (b :: bs) =
            scanBest eff (idx + 1) (mergeCand best (some (idx, b.remaining - eff))) bs := by
        cases best with
        | none => simp [scanBest, hc, mergeCand]
        | some p =>
          obtain ⟨j, m⟩ := p
          by_cases hlt : b.remaining - eff < m <;> simp [scanBest, hc, mergeCand, hlt]
      rw [hstep, ih, bestFitRec, if_pos hc, shiftCand_mergeCand, shiftCand_shiftCand,
        mergeCand_assoc]
      simp [shiftCand]
    · have hstep :
          scanBest eff idx best (b :: bs) = scanBest eff (idx + 1) best bs := by
        cases best with
        | none => simp [scanBest, hc]
        | some p => obtain ⟨j, m⟩ := p; simp [scanBest, hc]
      rw [hstep, ih, bestFitRec, if_neg hc, shiftCand_shiftCand]

theorem bestFitRec_eq_none {eff : ℚ} :
    ∀ {bins : List Bin}, bestFitRec eff bins = none ↔ ∀ b ∈ bins, ¬ eff ≤ b.remaining := by
  intro bins
  induction bins with
  | nil => simp [bestFitRec]
  | cons b bs ih =>
    by_cases hc : eff ≤ b.remaining
    · simp only [bestFitRec, if_pos hc]
      constructor
      · intro h
        exfalso
        cases hrec : bestFitRec eff bs with
        | none => rw [hrec] at h; simp [shiftCand, mergeCand] at h
        | some p =>
          rw [hrec] at h
          simp only [shiftCand, mergeCand] at h
          split at h <;> simp_all
      · intro h
        exact absurd hc (h b (List.mem_cons_self b bs))
    · simp only [bestFitRec, if_neg hc]
      constructor
      · intro h
        cases hrec : bestFitRec eff bs with
        | none =>
          intro b' hb'
          rcases List.mem_cons.mp hb' with rfl | hmem
          · exact hc
          · exact (ih.mp hrec) b' hmem
        | some p => rw [hrec] at h; simp [shiftCand] at h
      · intro h
        have : bestFitRec eff bs = none := ih.mpr fun b' hb' => h b' (List.mem_cons_of_mem b hb')
        rw [this]; rfl

theorem bestFitRec_firstMin {eff : ℚ} :
    ∀ {bins : List Bin} {i : ℕ} {ra : ℚ},
      bestFitRec eff bins = some (i, ra) → IsFirstMinFit bins eff i ra := by
  intro bins
  induction bins with
  | nil => intro i ra h; simp [bestFitRec] at h
  | cons b bs ih =>
    intro i ra h
    by_cases hc : eff ≤ b.remaining
    · rw [bestFitRec, if_pos hc] at h
      cases hrec : bestFitRec eff bs with
      | none =>
        rw [hrec] at h
        simp only [shiftCand, mergeCand_none_right, Option.some.injEq, Prod.mk.injEq] at h
        obtain ⟨rfl, rfl⟩ := h
        refine ⟨Nat.succ_pos _, hc, rfl, ?_, ?_⟩
        · intro j hj hfit
          match j with
          | 0 => simp
          | j + 1 =>
            exfalso
            have hj' : j < bs.length := by simpa using hj
            have hmem : bs[j] ∈ bs := List.getElem_mem hj'
            have := (bestFitRec_eq_none.mp hrec) _ hmem
            simp only [List.getElem_cons_succ] at hfit
            exact this hfit
        · intro j hj hji; exact absurd hji (Nat.not_lt_zero j)
      | some p =>
        obtain ⟨k, rt⟩ := p
        rw [hrec] at h
        obtain ⟨hk, hfitk, hrtk, hmin, hfirst⟩ := ih hrec
        simp only [shiftCand, mergeCand] at h
        by_cases hlt : rt < b.remaining - eff
        · rw [if_pos hlt] at h
          simp only [Option.some.injEq, Prod.mk.injEq] at h
          obtain ⟨rfl, rfl⟩ := h
          refine ⟨by simpa using Nat.succ_lt_succ hk, by simpa using hfitk, by simpa using hrtk, ?_, ?_⟩
          · intro j hj hfit
            match j with
            | 0 => simp only [List.getElem_cons_zero] at hfit ⊢; linarith
            | j + 1 =>
              have hj' : j < bs.length := by simpa using hj
              simp only [List.getElem_cons_succ] at hfit ⊢
              exact hmin j hj' hfit
          · intro j hj hji hfit
            match j with
            | 0 => simp only [List.getElem_cons_zero] at hfit ⊢; exact hlt
            | j + 1 =>
              have hj' : j < bs.length := by simpa using hj
              simp only [List.getElem_cons_succ] at hfit ⊢
              exact hfirst j hj' (by omega) hfit
        · rw [if_neg hlt] at h
          simp only [Option.some.injEq, Prod.mk.injEq] at h
          obtain ⟨rfl, rfl⟩ := h
          refine ⟨Nat.succ_pos _, hc, rfl, ?_, ?_⟩
          · intro j hj hfit
            match j with
            | 0 => simp
            | j + 1 =>
              have hj' : j < bs.length := by simpa using hj
              simp only [List.getElem_cons_succ] at hfit ⊢
              have h1 := hmin j hj' hfit
              have h2 : b.remaining - eff ≤ rt := le_of_not_lt hlt
              linarith
          · intro j hj hji; exact absurd hji (Nat.not_lt_zero j)
    · rw [bestFitRec, if_neg hc] at h
      cases hrec : bestFitRec eff bs with
      | none => rw [hrec] at h; simp [shiftCand] at h
      | some p =>
        obtain ⟨k, rt⟩ := p
        rw [hrec] at h
        simp only [shiftCand, Option.some.injEq, Prod.mk.injEq] at h
        obtain ⟨rfl, rfl⟩ := h
        obtain ⟨hk, hfitk, hrtk, hmin, hfirst⟩ := ih hrec
        refine ⟨by simpa using Nat.succ_lt_succ hk, by simpa using hfitk, by simpa using hrtk, ?_, ?_⟩
        · intro j hj hfit
          match j with
          | 0 => simp only [List.getElem_cons_zero] at hfit; exact absurd hfit hc
          | j + 1 =>
            have hj' : j < bs.length := by simpa using hj
            simp only [List.getElem_cons_succ] at hfit ⊢
            exact hmin j hj' hfit
        · intro j hj hji hfit
          match j with
          | 0 => simp only [List.getElem_cons_zero] at hfit; exact absurd hfit hc
          | j + 1 =>
            have hj' : j < bs.length := by simpa using hj
            simp only [List.getElem_cons_succ] at hfit ⊢
            exact hfirst j hj' (by omega) hfit

/-- The top-level scan (`best_bin = None`, `min_remaining = ∞`) is the
structural best-fit recursion. -/
theorem scanBest_eq_bestFitRec (eff : ℚ) (bins : List Bin) :
    scanBest eff 0 none bins = bestFitRec eff bins := by
  rw [scanBest_eq, shiftCand_zero]; rfl

theorem scanBest_some {eff : ℚ} {bins : List Bin} {i : ℕ} {ra : ℚ}
    (h : scanBest eff 0 none bins = some (i, ra)) : IsFirstMinFit bins eff i ra :=
  bestFitRec_firstMin (by rw [← scanBest_eq_bestFitRec]; exact h)

theorem scanBest_none {eff : ℚ} {bins : List Bin} :
    scanBest eff 0 none bins = none ↔ ∀ b ∈ bins, ¬ eff ≤ b.remaining := by
  rw [scanBest_eq_bestFitRec]; exact bestFitRec_eq_none

/-! ## Conservation and capacity invariants of the packer -/

theorem allCuts_nil : allCuts [] = [] := rfl

theorem allCuts_cons (b : Bin) (bs : List Bin) :
    allCuts (b :: bs) = b.cuts ++ allCuts bs := rfl

theorem allCuts_append (bs1 bs2 : List Bin) :
    allCuts (bs1 ++ bs2) = allCuts bs1 ++ allCuts bs2 := by
  simp [allCuts]

theorem effSum_append (kerf : ℚ) (c1 c2 : List CutPiece) :
    effSum kerf (c1 ++ c2) = effSum kerf c1 + effSum kerf c2 := by
  simp [effSum]

theorem effSum_singleton (kerf : ℚ) (c : CutPiece) :
    effSum kerf [c] = (c.length : ℚ) + kerf := by
  simp [effSum]

theorem effSum_nonneg {kerf : ℚ} (hkerf : 0 ≤ kerf) {cuts : List CutPiece}
    (hlen : ∀ c ∈ cuts, 0 < c.length) : 0 ≤ effSum kerf cuts := by
  refine List.sum_nonneg ?_
  intro x hx
  obtain ⟨c, hc, rfl⟩ := List.mem_map.mp hx
  have := hlen c hc
  have hcq : (0 : ℚ) < (c.length : ℚ) := by exact_mod_cast this
  linarith

/-- Membership in an updated bin list: either an untouched bin or the image of
the updated index. -/
theorem mem_updAt {f : Bin → Bin} :
    ∀ {bins : List Bin} {i : ℕ} {b : Bin}, b ∈ updAt i f bins →
      b ∈ bins ∨ ∃ hi : i < bins.length, b = f bins[i] := by
  intro bins
  induction bins with
  | nil => intro i b h; simp [updAt] at h
  | cons hd tl ih =>
    intro i b h
    match i with
    | 0 =>
      rcases List.mem_cons.mp h with rfl | hmem
      · exact Or.inr ⟨Nat.succ_pos _, rfl⟩
      · exact Or.inl (List.mem_cons_of_mem hd hmem)
    | i + 1 =>
      rcases List.mem_cons.mp h with rfl | hmem
      · exact Or.inl (List.mem_cons_self _ _)
      · rcases ih hmem with h1 | ⟨hi, h2⟩
        · exact Or.inl (List.mem_cons_of_mem hd h1)
        · exact Or.inr ⟨Nat.succ_lt_succ hi, by simpa using h2⟩

theorem allCuts_updAt_perm (it : CutPiece) (eff : ℚ) :
    ∀ (bins : List Bin) (i : ℕ), i < bins.length →
      (allCuts (updAt i (fun b => ⟨b.remaining - eff, b.cuts ++ [it]⟩) bins)).Perm
        (allCuts bins ++ [it]) := by
  intro bins
  induction bins with
  | nil => intro i h; simp at h
  | cons hd tl ih =>
    intro i h
    match i with
    | 0 =>
      simp only [updAt, allCuts_cons, List.append_assoc]
      exact (List.Perm.append_left hd.cuts (List.perm_append_comm))
    | i + 1 =>
      simp only [updAt, allCuts_cons, List.append_assoc]
      exact List.Perm.append_left hd.cuts (by simpa using ih i (by simpa using h))

/-- Unfolding `placeItem` when no open bin fits. -/
theorem placeItem_eq_of_none {stock kerf : ℚ} {bins : List Bin} {it : CutPiece}
    (h : scanBest ((it.length : ℚ) + kerf) 0 none bins = none) :
    placeItem stock kerf bins it
      = bins ++ [⟨stock - ((it.length : ℚ) + kerf), [it]⟩] := by
  simp only [placeItem, h]

/-- Unfolding `placeItem` when the scan selects bin `i`. -/
theorem placeItem_eq_of_some {stock kerf : ℚ} {bins : List Bin} {it : CutPiece} {i : ℕ} {ra : ℚ}
    (h : scanBest ((it.length : ℚ) + kerf) 0 none bins = some (i, ra)) :
    placeItem stock kerf bins it
      = updAt i (fun b => ⟨b.remaining - ((it.length : ℚ) + kerf), b.cuts ++ [it]⟩) bins := by
  simp only [placeItem, h]

/-- Placing one item adds exactly that item to the cuts across all bins. -/
theorem placeItem_allCuts_perm (stock kerf : ℚ) (bins : List Bin) (it : CutPiece) :
    (allCuts (placeItem stock kerf bins it)).Perm (allCuts bins ++ [it]) := by
  cases hscan : scanBest ((it.length : ℚ) + kerf) 0 none bins with
  | none =>
    rw [placeItem_eq_of_none hscan]
    simp [allCuts_append, allCuts_cons, allCuts_nil]
  | some p =>
    obtain ⟨i, ra⟩ := p
    obtain ⟨hi, -, -, -, -⟩ := scanBest_some hscan
    rw [placeItem_eq_of_some hscan]
    exact allCuts_updAt_perm it ((it.length : ℚ) + kerf) bins i hi

theorem foldl_placeItem_allCuts_perm (stock kerf : ℚ) :
    ∀ (items : List CutPiece) (bins : List Bin),
      (allCuts (items.foldl (placeItem stock kerf) bins)).Perm (allCuts bins ++ items) := by
  intro items
  induction items with
  | nil => intro bins; simp
  | cons it its ih =>
    intro bins
    have h1 := ih (placeItem stock kerf bins it)
    have h2 := (placeItem_allCuts_perm stock kerf bins it).append_right its
    rw [List.foldl_cons]
    refine h1.trans (h2.trans ?_)
    rw [List.append_assoc, List.singleton_append]

theorem placeItem_remSpec {stock kerf : ℚ} {bins : List Bin}
    (h : RemSpec stock kerf bins) (it : CutPiece) :
    RemSpec stock kerf (placeItem stock kerf bins it) := by
  cases hscan : scanBest ((it.length : ℚ) + kerf) 0 none bins with
  | none =>
    rw [placeItem_eq_of_none hscan]
    intro b hb
    rcases List.mem_append.mp hb with hmem | hmem
    · exact h b hmem
    · simp only [List.mem_singleton] at hmem
      subst hmem
      simp [effSum_singleton]
  | some p =>
    obtain ⟨i, ra⟩ := p
    obtain ⟨hi, -, -, -, -⟩ := scanBest_some hscan
    rw [placeItem_eq_of_some hscan]
    intro b hb
    rcases mem_updAt hb with hmem | ⟨hi2, rfl⟩
    · exact h b hmem
    · have := h bins[i] (List.getElem_mem hi2)
      simp only [effSum_append, effSum_singleton]
      rw [this]
      ring

theorem foldl_placeItem_remSpec {stock kerf : ℚ} :
    ∀ {items : List CutPiece} {bins : List Bin},
      RemSpec stock kerf bins → RemSpec stock kerf (items.foldl (placeItem stock kerf) bins) := by
  intro items
  induction items with
  | nil => intro bins h; exact h
  | cons it its ih => intro bins h; exact ih (placeItem_remSpec h it)

theorem placeItem_nonnegRem {stock kerf : ℚ} {bins : List Bin} {it : CutPiece}
    (hfit : (it.length : ℚ) + kerf ≤ stock) (h : NonnegRem bins) :
    NonnegRem (placeItem stock kerf bins it) := by
  cases hscan : scanBest ((it.length : ℚ) + kerf) 0 none bins with
  | none =>
    rw [placeItem_eq_of_none hscan]
    intro b hb
    rcases List.mem_append.mp hb with hmem | hmem
    · exact h b hmem
    · simp only [List.mem_singleton] at hmem
      subst hmem
      simpa using sub_nonneg.mpr hfit
  | some p =>
    obtain ⟨i, ra⟩ := p
    obtain ⟨hi, hfiti, -, -, -⟩ := scanBest_some hscan
    rw [placeItem_eq_of_some hscan]
    intro b hb
    rcases mem_updAt hb with hmem | ⟨hi2, rfl⟩
    · exact h b hmem
    · simpa using sub_nonneg.mpr hfiti

theorem foldl_placeItem_nonnegRem {stock kerf : ℚ} :
    ∀ {items : List CutPiece} {bins : List Bin},
      (∀ it ∈ items, (it.length : ℚ) + kerf ≤ stock) → NonnegRem bins →
      NonnegRem (items.foldl (placeItem stock kerf) bins) := by
  intro items
  induction items with
  | nil => intro bins _ h; exact h
  | cons it its ih =>
    intro bins hfit h
    exact ih (fun x hx => hfit x (List.mem_cons_of_mem it hx))
      (placeItem_nonnegRem (hfit it (List.mem_cons_self it its)) h)

theorem placeItem_overInv {stock kerf : ℚ} {bins : List Bin} {it : CutPiece}
    (hkerf : 0 ≤ kerf) (hit : 0 < it.length) (h : OverInv stock kerf bins) :
    OverInv stock kerf (placeItem stock kerf bins it) := by
  cases hscan : scanBest ((it.length : ℚ) + kerf) 0 none bins with
  | none =>
    rw [placeItem_eq_of_none hscan]
    intro b hb
    rcases List.mem_append.mp hb with hmem | hmem
    · exact h b hmem
    · simp only [List.mem_singleton] at hmem
      subst hmem
      refine ⟨by simp, ?_, by simp [effSum_singleton], ?_⟩
      · intro c hc
        simp only [List.mem_singleton] at hc
        subst hc; exact hit
      · intro c hc _
        simp only [List.mem_singleton] at hc
        subst hc; rfl
  | some p =>
    obtain ⟨i, ra⟩ := p
    obtain ⟨hi, hfiti, -, -, -⟩ := scanBest_some hscan
    rw [placeItem_eq_of_some hscan]
    intro b hb
    rcases mem_updAt hb with hmem | ⟨hi2, rfl⟩
    · exact h b hmem
    · obtain ⟨hne, hpos, hrem, hover⟩ := h bins[i] (List.getElem_mem hi2)
      have heffpos : 0 < (it.length : ℚ) + kerf := by
        have hq : (0 : ℚ) < (it.length : ℚ) := by exact_mod_cast hit
        linarith
      have hnoover : ∀ c ∈ bins[i].cuts, ¬ stock < (c.length : ℚ) + kerf := by
        intro c hc hover_c
        have hsing := hover c hc hover_c
        have hr : bins[i].remaining = stock - ((c.length : ℚ) + kerf) := by
          rw [hrem, hsing, effSum_singleton]
        have hneg : bins[i].remaining < 0 := by rw [hr]; linarith
        linarith
      have hitok : ¬ stock < (it.length : ℚ) + kerf := by
        intro hover_it
        have h0 : 0 ≤ effSum kerf bins[i].cuts := effSum_nonneg hkerf hpos
        have hle : bins[i].remaining ≤ stock := by rw [hrem]; linarith
        linarith
      refine ⟨by simp, ?_, ?_, ?_⟩
      · intro c hc
        rcases List.mem_append.mp hc with hcc | hcc
        · exact hpos c hcc
        · simp only [List.mem_singleton] at hcc
          subst hcc; exact hit
      · show bins[i].remaining - ((it.length : ℚ) + kerf)
            = stock - effSum kerf (bins[i].cuts ++ [it])
        rw [effSum_append, effSum_singleton, hrem]
        ring
      · intro c hc hover_c
        exfalso
        rcases List.mem_append.mp hc with hcc | hcc
        · exact hnoover c hcc hover_c
        · simp only [List.mem_singleton] at hcc
          subst hcc; exact hitok hover_c

theorem foldl_placeItem_overInv {stock kerf : ℚ} (hkerf : 0 ≤ kerf) :
    ∀ {items : List CutPiece} {bins : List Bin},
      (∀ it ∈ items, 0 < it.length) → OverInv stock kerf bins →
      OverInv stock kerf (items.foldl (placeItem stock kerf) bins) := by
  intro items
  induction items with
  | nil => intro bins _ h; exact h
  | cons it its ih =>
    intro bins hlen h
    exact ih (fun x hx => hlen x (List.mem_cons_of_mem it hx))
      (placeItem_overInv hkerf (hlen it (List.mem_cons_self it its)) h)

theorem placeItem_cutsNonempty {stock kerf : ℚ} {bins : List Bin}
    (h : CutsNonempty bins) (it : CutPiece) :
    CutsNonempty (placeItem stock kerf bins it) := by
  cases hscan : scanBest ((it.length : ℚ) + kerf) 0 none bins with
  | none =>
    rw [placeItem_eq_of_none hscan]
    intro b hb
    rcases List.mem_append.mp hb with hmem | hmem
    · exact h b hmem
    · simp only [List.mem_singleton] at hmem
      subst hmem; simp
  | some p =>
    obtain ⟨i, ra⟩ := p
    rw [placeItem_eq_of_some hscan]
    intro b hb
    rcases mem_updAt hb with hmem | ⟨hi2, rfl⟩
    · exact h b hmem
    · simp

/-- Appending a cut to an existing (non-empty) bin does not change the heads of
the bins' cut lists. -/
theorem updAt_map_headI :
    ∀ {bins : List Bin} {i : ℕ} (hi : i < bins.length), bins[i].cuts ≠ [] →
      ∀ (eff : ℚ) (it : CutPiece),
        ((updAt i (fun b => ⟨b.remaining - eff, b.cuts ++ [it]⟩) bins).map
            fun b => b.cuts.headI)
          = bins.map fun b => b.cuts.headI := by
  intro bins
  induction bins with
  | nil => intro i hi; simp at hi
  | cons hd tl ih =>
    intro i hi hne eff it
    match i with
    | 0 =>
      simp only [updAt, List.map_cons]
      congr 1
      cases hcuts : hd.cuts with
      | nil => exact absurd hcuts (by simpa using hne)
      | cons c cs => simp [hcuts]
    | i + 1 =>
      simp only [updAt, List.map_cons]
      congr 1
      exact ih (by simpa using hi) (by simpa using hne) eff it

/-- The heads of the produced bins (each bin's opening item) form a sublist of
the processed items: bins appear in creation order. -/
theorem foldl_placeItem_heads (stock kerf : ℚ) :
    ∀ (items : List CutPiece) (bins : List Bin), CutsNonempty bins →
      ∃ s : List CutPiece, s.Sublist items ∧
        ((items.foldl (placeItem stock kerf) bins).map fun b => b.cuts.headI)
          = (bins.map fun b => b.cuts.headI) ++ s := by
  intro items
  induction items with
  | nil => intro bins _; exact ⟨[], List.nil_sublist _, by simp⟩
  | cons it its ih =>
    intro bins h
    rw [List.foldl_cons]
    obtain ⟨s, hs, heq⟩ := ih (placeItem stock kerf bins it) (placeItem_cutsNonempty h it)
    cases hscan : scanBest ((it.length : ℚ) + kerf) 0 none bins with
    | some p =>
      obtain ⟨i, ra⟩ := p
      obtain ⟨hi, -, -, -, -⟩ := scanBest_some hscan
      refine ⟨s, hs.cons it, ?_⟩
      rw [heq, placeItem_eq_of_some hscan,
        updAt_map_headI hi (h _ (List.getElem_mem hi)) _ it]
    | none =>
      refine ⟨it :: s, hs.cons₂ it, ?_⟩
      rw [heq, placeItem_eq_of_none hscan]
      simp

/-- Inserting into the mid of the descending order commutes with filtering by an
exact length value: the skipped elements are strictly longer. -/
theorem filter_orderedInsert (v : ℤ) (a : CutPiece) :
    ∀ l : List CutPiece,
      (List.orderedInsert lenGE a l).filter (fun c => decide (c.length = v))
        = (a :: l).filter (fun c => decide (c.length = v)) := by
  intro l
  induction l with
  | nil => rfl
  | cons b l ih =>
    by_cases hab : lenGE a b
    · rw [List.orderedInsert_of_le lenGE l hab]
    · have hstep : List.orderedInsert lenGE a (b :: l)
          = b :: List.orderedInsert lenGE a l := by
        simp [List.orderedInsert, hab]
      rw [hstep]
      by_cases hb : b.length = v
      · have ha : ¬ a.length = v := by
          simp only [lenGE, not_le] at hab
          omega
        simp [List.filter_cons, hb, ha, ih]
      · simp [List.filter_cons, hb, ih]

/-- Stability of the descending sort: cuts of any fixed length appear in the
same order as in the input. -/
theorem sortItemsDesc_filter_eq (v : ℤ) (l : List CutPiece) :
    (sortItemsDesc l).filter (fun c => decide (c.length = v))
      = l.filter (fun c => decide (c.length = v)) := by
  induction l with
  | nil => rfl
  | cons x l ih =>
    have h1 := filter_orderedInsert v x (List.insertionSort lenGE l)
    simp only [sortItemsDesc, List.insertionSort] at *
    rw [h1, List.filter_cons, List.filter_cons, ih]

/-! ## Transfer lemmas -/

theorem mem_expandItems {parts : List PartRequest} {c : CutPiece}
    (h : c ∈ expandItems parts) : ∃ p ∈ parts, c = ⟨p.profile, p.length⟩ := by
  simp only [expandItems, List.mem_flatMap] at h
  obtain ⟨p, hp, hc⟩ := h
  exact ⟨p, hp, List.eq_of_mem_replicate hc⟩

theorem mem_sortItemsDesc {l : List CutPiece} {c : CutPiece} :
    c ∈ sortItemsDesc l ↔ c ∈ l := by
  simp only [sortItemsDesc]
  exact (List.perm_insertionSort lenGE l).mem_iff

/-- The cuts across all bins of the packer's result are a permutation of the
expanded items. -/
theorem allCuts_best_fit_perm (parts : List PartRequest) (s k : ℚ) :
    (allCuts (best_fit_cutting_stock parts s k)).Perm (expandItems parts) := by
  have h1 := foldl_placeItem_allCuts_perm s k (sortItemsDesc (expandItems parts)) []
  have h2 : (sortItemsDesc (expandItems parts)).Perm (expandItems parts) :=
    List.perm_insertionSort lenGE _
  exact h1.trans h2

theorem emptyBins_remSpec (s k : ℚ) : RemSpec s k [] :=
  fun b hb => absurd hb (List.not_mem_nil b)

theorem emptyBins_nonnegRem : NonnegRem [] :=
  fun b hb => absurd hb (List.not_mem_nil b)

theorem emptyBins_overInv (s k : ℚ) : OverInv s k [] :=
  fun b hb => absurd hb (List.not_mem_nil b)

theorem emptyBins_cutsNonempty : CutsNonempty [] :=
  fun b hb => absurd hb (List.not_mem_nil b)

/-! ## Claim theorems -/

/-- C1 (Conservation): for every input parts list, stock length and kerf, the
multiset of `(profile, length)` pairs collected from the `cuts` lists of all
bins returned by `best_fit_cutting_stock` equals the expanded item multiset —
no item is created, dropped, or duplicated. -/
theorem best_fit_conservation (parts : List PartRequest) (stock_length cut_kerf : ℚ) :
    (↑(allCuts (best_fit_cutting_stock parts stock_length cut_kerf)) : Multiset CutPiece)
      = ↑(expandItems parts) := by
  rw [Multiset.coe_eq_coe]
  exact allCuts_best_fit_perm parts stock_length cut_kerf

/-- C2 (Capacity invariant): with positive item lengths, positive stock length
and non-negative kerf, every produced bin satisfies
`remaining = stock_length - sum(length + kerf over its cuts)`; and if every
item's effective length is at most the stock length, then every bin satisfies
`sum(length + kerf over its cuts) ≤ stock_length` and `remaining ≥ 0`. -/
theorem best_fit_capacity_invariant (parts : List PartRequest)
    (stock_length cut_kerf : ℚ)
    (hlen : ∀ p ∈ parts, 0 < p.length) (hstock : 0 < stock_length)
    (hkerf : 0 ≤ cut_kerf) :
    (∀ b ∈ best_fit_cutting_stock parts stock_length cut_kerf,
        b.remaining = stock_length - effSum cut_kerf b.cuts) ∧
    ((∀ p ∈ parts, (p.length : ℚ) + cut_kerf ≤ stock_length) →
      ∀ b ∈ best_fit_cutting_stock parts stock_length cut_kerf,
        effSum cut_kerf b.cuts ≤ stock_length ∧ 0 ≤ b.remaining) := by
  have hrem : RemSpec stock_length cut_kerf
      ((sortItemsDesc (expandItems parts)).foldl (placeItem stock_length cut_kerf) []) :=
    foldl_placeItem_remSpec (emptyBins_remSpec stock_length cut_kerf)
  constructor
  · exact fun b hb => hrem b hb
  · intro hfit b hb
    have hfit' : ∀ it ∈ sortItemsDesc (expandItems parts),
        (it.length : ℚ) + cut_kerf ≤ stock_length := by
      intro it hit
      obtain ⟨p, hp, rfl⟩ := mem_expandItems (mem_sortItemsDesc.mp hit)
      exact hfit p hp
    have hnn : NonnegRem
        ((sortItemsDesc (expandItems parts)).foldl (placeItem stock_length cut_kerf) []) :=
      foldl_placeItem_nonnegRem hfit' emptyBins_nonnegRem
    have h1 := hrem b hb
    have h2 := hnn b hb
    refine ⟨?_, h2⟩
    rw [h1] at h2
    linarith

/-- C2 witness: a concrete instance (one part of length 100, stock 150,
kerf 0) satisfying every hypothesis, with the instantiated conclusion. -/
theorem best_fit_capacity_invariant_witness :
    (∀ p ∈ [PartRequest.mk "P" 100 1 0], 0 < p.length) ∧ (0 : ℚ) < 150 ∧ (0 : ℚ) ≤ 0 ∧
    ((∀ b ∈ best_fit_cutting_stock [⟨"P", 100, 1, 0⟩] 150 0,
        b.remaining = 150 - effSum 0 b.cuts) ∧
      ((∀ p ∈ [PartRequest.mk "P" 100 1 0], (p.length : ℚ) + 0 ≤ 150) →
        ∀ b ∈ best_fit_cutting_stock [⟨"P", 100, 1, 0⟩] 150 0,
          effSum 0 b.cuts ≤ 150 ∧ 0 ≤ b.remaining)) :=
  ⟨by decide, by norm_num, le_refl 0,
    best_fit_capacity_invariant [⟨"P", 100, 1, 0⟩] 150 0 (by decide) (by norm_num) (le_refl 0)⟩

/-- C3 (Best-fit tie-break worked example): items `[100, 90, 50]`, stock 150,
kerf 0 give exactly two bins in creation order: `[100, 50]` with remaining 0,
then `[90]` with remaining 60. -/
theorem best_fit_tie_break_example :
    best_fit_cutting_stock
      [⟨"P", 100, 1, 0⟩, ⟨"P", 90, 1, 0⟩, ⟨"P", 50, 1, 0⟩] 150 0 =
      [⟨0, [⟨"P", 100⟩, ⟨"P", 50⟩]⟩, ⟨60, [⟨"P", 90⟩]⟩] := by
  norm_num [best_fit_cutting_stock, sortItemsDesc, expandItems, placeItem, scanBest, updAt,
    lenGE, List.insertionSort, List.orderedInsert, List.foldl, List.flatMap, List.replicate]

/-- C5 (Over-length edge case): with positive item lengths, positive stock and
non-negative kerf, the packer never drops an item (conservation), and any bin
containing an over-length cut contains exactly that cut, with
`remaining = stock_length - effective_length < 0`; being a singleton, the bin
never received any further cut. -/
theorem best_fit_overlength_bins (parts : List PartRequest)
    (stock_length cut_kerf : ℚ)
    (hlen : ∀ p ∈ parts, 0 < p.length) (hstock : 0 < stock_length)
    (hkerf : 0 ≤ cut_kerf) :
    (↑(allCuts (best_fit_cutting_stock parts stock_length cut_kerf)) : Multiset CutPiece)
        = ↑(expandItems parts) ∧
    ∀ b ∈ best_fit_cutting_stock parts stock_length cut_kerf, ∀ c ∈ b.cuts,
      stock_length < (c.length : ℚ) + cut_kerf →
        b.cuts = [c] ∧ b.remaining = stock_length - ((c.length : ℚ) + cut_kerf) ∧
          b.remaining < 0 := by
  constructor
  · rw [Multiset.coe_eq_coe]
    exact allCuts_best_fit_perm parts stock_length cut_kerf
  · have hlen' : ∀ it ∈ sortItemsDesc (expandItems parts), 0 < it.length := by
      intro it hit
      obtain ⟨p, hp, rfl⟩ := mem_expandItems (mem_sortItemsDesc.mp hit)
      exact hlen p hp
    have hinv : OverInv stock_length cut_kerf
        ((sortItemsDesc (expandItems parts)).foldl (placeItem stock_length cut_kerf) []) :=
      foldl_placeItem_overInv hkerf hlen' (emptyBins_overInv stock_length cut_kerf)
    intro b hb c hc hover
    obtain ⟨hne, hpos, hrem, hsing⟩ := hinv b hb
    have hcuts := hsing c hc hover
    have hr : b.remaining = stock_length - ((c.length : ℚ) + cut_kerf) := by
      rw [hrem, hcuts, effSum_singleton]
    exact ⟨hcuts, hr, by rw [hr]; linarith⟩

/-- C5 witness: a 200mm item against 150mm stock (kerf 0) is placed alone in a
bin with remaining `-50`. -/
theorem best_fit_overlength_bins_witness :
    (∀ p ∈ [PartRequest.mk "P" 200 1 0], 0 < p.length) ∧ (0 : ℚ) < 150 ∧
    best_fit_cutting_stock [⟨"P", 200, 1, 0⟩] 150 0 = [⟨-50, [⟨"P", 200⟩]⟩] ∧
    ((↑(allCuts (best_fit_cutting_stock [⟨"P", 200, 1, 0⟩] 150 0)) : Multiset CutPiece)
        = ↑(expandItems [⟨"P", 200, 1, 0⟩]) ∧
      ∀ b ∈ best_fit_cutting_stock [⟨"P", 200, 1, 0⟩] 150 0, ∀ c ∈ b.cuts,
        (150 : ℚ) < (c.length : ℚ) + 0 →
          b.cuts = [c] ∧ b.remaining = 150 - ((c.length : ℚ) + 0) ∧ b.remaining < 0) :=
  ⟨by decide, by norm_num,
    by norm_num [best_fit_cutting_stock, sortItemsDesc, expandItems, placeItem, scanBest,
      updAt, lenGE, List.insertionSort, List.orderedInsert, List.foldl, List.flatMap,
      List.replicate],
    best_fit_overlength_bins [⟨"P", 200, 1, 0⟩] 150 0 (by decide) (by norm_num) (le_refl 0)⟩

/-- C8 (Packing order): the packer processes the expanded items in stable
descending length order — the processed sequence is a permutation of the
expansion, pairwise non-increasing in length, and filtering by any exact length
value preserves the expansion's order (stability) — and the returned bins are
in creation order: the heads of the bins' cut lists (each bin's opening item)
form a sublist of the processed sequence. -/
theorem best_fit_packing_order (parts : List PartRequest) (stock_length cut_kerf : ℚ) :
    (sortItemsDesc (expandItems parts)).Perm (expandItems parts) ∧
    (sortItemsDesc (expandItems parts)).Pairwise (fun a b => b.length ≤ a.length) ∧
    (∀ v : ℤ, (sortItemsDesc (expandItems parts)).filter (fun c => decide (c.length = v))
        = (expandItems parts).filter (fun c => decide (c.length = v))) ∧
    best_fit_cutting_stock parts stock_length cut_kerf
      = (sortItemsDesc (expandItems parts)).foldl (placeItem stock_length cut_kerf) [] ∧
    ((best_fit_cutting_stock parts stock_length cut_kerf).map fun b => b.cuts.headI).Sublist
      (sortItemsDesc (expandItems parts)) := by
  refine ⟨List.perm_insertionSort lenGE _, List.sorted_insertionSort lenGE _,
    fun v => sortItemsDesc_filter_eq v _, rfl, ?_⟩
  obtain ⟨s, hs, heq⟩ := foldl_placeItem_heads stock_length cut_kerf
    (sortItemsDesc (expandItems parts)) [] emptyBins_cutsNonempty
  have hbf : best_fit_cutting_stock parts stock_length cut_kerf
      = (sortItemsDesc (expandItems parts)).foldl (placeItem stock_length cut_kerf) [] := rfl
  rw [hbf, heq]
  simpa using hs

/-- C9 (Best-fit tie among equally tight bins): when the scan selects bin `i`,
that bin fits, its remaining-after value is minimal among all fitting bins, and
every fitting bin at an earlier index has a strictly larger remaining-after
value — so ties go to the earliest-opened bin — and the item is placed there. -/
theorem best_fit_first_min_tie_break (stock_length cut_kerf : ℚ) (bins : List Bin)
    (item : CutPiece) (i : ℕ) (ra : ℚ)
    (h : scanBest ((item.length : ℚ) + cut_kerf) 0 none bins = some (i, ra)) :
    IsFirstMinFit bins ((item.length : ℚ) + cut_kerf) i ra ∧
    placeItem stock_length cut_kerf bins item =
      updAt i (fun b => ⟨b.remaining - ((item.length : ℚ) + cut_kerf),
        b.cuts ++ [item]⟩) bins :=
  ⟨scanBest_some h, placeItem_eq_of_some h⟩

/-- C9 witness: two bins of remaining 100 tie for a 40mm item (both would leave
60); the scan picks the earlier bin, index 0. -/
theorem best_fit_first_min_tie_break_witness :
    scanBest ((CutPiece.mk "P" 40).length + (0 : ℚ)) 0 none
        [⟨100, [⟨"P", 110⟩]⟩, ⟨100, [⟨"P", 110⟩]⟩] = some (0, 60) ∧
    (IsFirstMinFit [⟨100, [⟨"P", 110⟩]⟩, ⟨100, [⟨"P", 110⟩]⟩]
        ((CutPiece.mk "P" 40).length + (0 : ℚ)) 0 60 ∧
      placeItem 210 0 [⟨100, [⟨"P", 110⟩]⟩, ⟨100, [⟨"P", 110⟩]⟩] ⟨"P", 40⟩ =
        updAt 0 (fun b => ⟨b.remaining - ((CutPiece.mk "P" 40).length + (0 : ℚ)),
          b.cuts ++ [⟨"P", 40⟩]⟩) [⟨100, [⟨"P", 110⟩]⟩, ⟨100, [⟨"P", 110⟩]⟩]) :=
  have hscan : scanBest ((CutPiece.mk "P" 40).length + (0 : ℚ)) 0 none
      [⟨100, [⟨"P", 110⟩]⟩, ⟨100, [⟨"P", 110⟩]⟩] = some (0, 60) := by
    norm_num [scanBest]
  ⟨hscan, best_fit_first_min_tie_break 210 0 _ _ 0 60 hscan⟩

/-- C4 counterexample: for a bin with two consecutive identical 3000mm cuts the
source renders two `"1x"` entries, not the single grouped `"2x"` entry the
claim describes. -/
theorem pattern_details_grouping_counterexample :
    ((generate_pattern_details_table [⟨0, [⟨"P", 3000⟩, ⟨"P", 3000⟩]⟩] 6000).map
        fun row => row.cutDetails) = ["1x P(3000mm) + 1x P(3000mm)"] ∧
    specGroupedCutDetails [⟨"P", 3000⟩, ⟨"P", 3000⟩] = "2x P(3000mm)" ∧
    ((generate_pattern_details_table [⟨0, [⟨"P", 3000⟩, ⟨"P", 3000⟩]⟩] 6000).map
        fun row => row.cutDetails) ≠ [specGroupedCutDetails [⟨"P", 3000⟩, ⟨"P", 3000⟩]] := by
  refine ⟨by decide, by decide, by decide⟩

/-- C4 amended: the cut-details string renders every cut as its own
`"1x profile(lengthmm)"` entry joined by `" + "` — consecutive identical cuts
are not grouped; the table has one row per bin and its waste column is the
bin's remaining value. -/
theorem pattern_details_per_cut_entries (bins : List Bin) (stock_length : ℚ) :
    (((generate_pattern_details_table bins stock_length).map fun row => row.cutDetails)
      = bins.map fun b => String.intercalate " + "
          (b.cuts.map fun c => "1x " ++ c.profile ++ "(" ++ toString c.length ++ "mm)")) ∧
    (((generate_pattern_details_table bins stock_length).map fun row => row.remainingWaste)
      = bins.map fun b => b.remaining) ∧
    (generate_pattern_details_table bins stock_length).length = bins.length := by
  have key : ∀ {β : Type} (g : Bin → β), (bins.enum.map fun p => g p.2) = bins.map g := by
    intro β g
    have h1 : (bins.enum.map fun p => g p.2) = (bins.enum.map Prod.snd).map g := by
      rw [List.map_map]; rfl
    rw [h1, List.enum_map_snd]
  refine ⟨?_, ?_, ?_⟩
  · simp only [generate_pattern_details_table, List.map_map]
    exact key fun b => String.intercalate " + "
      (b.cuts.map fun c => "1x " ++ c.profile ++ "(" ++ toString c.length ++ "mm)")
  · simp only [generate_pattern_details_table, List.map_map]
    exact key fun b => b.remaining
  · simp [generate_pattern_details_table]

/-- C6 (Aggregate waste formula): for any report row,
`stocks_used = bin_count`,
`effective_usage_mm = Σ (length × quantity)` and
`waste_mm = bin_count × stock_length − Σ (length × quantity) − kerf × Σ quantity`
(the `_mm` values are the reported metre values times 1000). -/
theorem final_report_aggregate_formula (parts : List PartRequest) (bins : List Bin)
    (stock_length cut_kerf : ℚ) (profile : Option String) (row : AggregateRow)
    (h : generate_final_report parts bins stock_length cut_kerf profile = some row) :
    row.totalStocksUsed = bins.length ∧
    row.effectiveUsage_m * 1000 = (parts.map fun p => (p.length : ℚ) * p.demand).sum ∧
    row.waste_m * 1000
      = (bins.length : ℚ) * stock_length
        - (parts.map fun p => (p.length : ℚ) * p.demand).sum
        - cut_kerf * (parts.map fun p => (p.demand : ℚ)).sum := by
  match parts with
  | [] => simp [generate_final_report] at h
  | p0 :: rest =>
    simp only [generate_final_report] at h
    rw [Option.some_inj] at h
    subst h
    have hZ : ((totalDemand (p0 :: rest) : ℕ) : ℚ)
        = ((p0 :: rest).map fun p => (p.demand : ℚ)).sum := by
      rw [totalDemand, Nat.cast_list_sum, List.map_map]; rfl
    refine ⟨rfl, ?_, ?_⟩
    · rw [div_mul_cancel₀ _ (by norm_num : (1000 : ℚ) ≠ 0)]; rfl
    · rw [div_mul_cancel₀ _ (by norm_num : (1000 : ℚ) ≠ 0), hZ]; rfl

/-- C6 witness: one part of length 100 and quantity 3 against stock 100 with
kerf 0 — the packer yields three bins, and the report gives `stocks_used = 3`,
`effective_usage_mm = 300` and `waste_mm = 0`. -/
theorem final_report_aggregate_formula_witness :
    (best_fit_cutting_stock [⟨"P", 100, 3, 0⟩] 100 0).length = 3 ∧
    ∃ row : AggregateRow,
      generate_final_report [⟨"P", 100, 3, 0⟩]
          (best_fit_cutting_stock [⟨"P", 100, 3, 0⟩] 100 0) 100 0 none = some row ∧
      row.totalStocksUsed = 3 ∧ row.effectiveUsage_m * 1000 = 300 ∧ row.waste_m = 0 := by
  have hbins : best_fit_cutting_stock [⟨"P", 100, 3, 0⟩] 100 0
      = [⟨0, [⟨"P", 100⟩]⟩, ⟨0, [⟨"P", 100⟩]⟩, ⟨0, [⟨"P", 100⟩]⟩] := by
    norm_num [best_fit_cutting_stock, sortItemsDesc, expandItems, placeItem, scanBest, updAt,
      lenGE, List.insertionSort, List.orderedInsert, List.foldl, List.flatMap, List.replicate]
  have hrep : generate_final_report [⟨"P", 100, 3, 0⟩]
      (best_fit_cutting_stock [⟨"P", 100, 3, 0⟩] 100 0) 100 0 none
      = some ⟨"P", 3, 100, 0, 3 / 10, 3 / 10, 0, 0, 0, 0⟩ := by
    rw [hbins]
    norm_num [generate_final_report, effectiveUsageMm, totalDemand]
  have hthm := final_report_aggregate_formula [⟨"P", 100, 3, 0⟩]
    (best_fit_cutting_stock [⟨"P", 100, 3, 0⟩] 100 0) 100 0 none
    ⟨"P", 3, 100, 0, 3 / 10, 3 / 10, 0, 0, 0, 0⟩ hrep
  refine ⟨by rw [hbins]; rfl, ⟨"P", 3, 100, 0, 3 / 10, 3 / 10, 0, 0, 0, 0⟩, hrep, rfl, ?_, rfl⟩
  rw [hthm.2.1]
  norm_num

/-- C7 (Weight propagation): the report takes `weight_per_meter` from the first
part of the group; when it is positive the three weight figures are the
corresponding metre figures multiplied by it, otherwise all three are zero. -/
theorem final_report_weight_propagation (p0 : PartRequest) (rest : List PartRequest)
    (bins : List Bin) (stock_length cut_kerf : ℚ) (profile : Option String)
    (row : AggregateRow)
    (h : generate_final_report (p0 :: rest) bins stock_length cut_kerf profile = some row) :
    row.weightPerM = p0.weight_per_m ∧
    (0 < p0.weight_per_m →
      row.totalOrderWeight_kg = row.totalStockConsumed_m * p0.weight_per_m ∧
      row.effectiveWeight_kg = row.effectiveUsage_m * p0.weight_per_m ∧
      row.wasteWeight_kg = row.waste_m * p0.weight_per_m) ∧
    (¬ 0 < p0.weight_per_m →
      row.totalOrderWeight_kg = 0 ∧ row.effectiveWeight_kg = 0 ∧
        row.wasteWeight_kg = 0) := by
  simp only [generate_final_report] at h
  rw [Option.some_inj] at h
  subst h
  by_cases hw : 0 < p0.weight_per_m <;> simp [hw]

/-- C7 witness: `weight_per_meter = 2`, stock 1000mm, one bin used gives a
total order weight of 2 kg (1 m of stock × 2 kg/m). -/
theorem final_report_weight_propagation_witness :
    ∃ row : AggregateRow,
      generate_final_report [⟨"P", 500, 1, 2⟩]
          (best_fit_cutting_stock [⟨"P", 500, 1, 2⟩] 1000 0) 1000 0 none = some row ∧
      row.weightPerM = 2 ∧ row.totalStockConsumed_m = 1 ∧
      row.totalOrderWeight_kg = row.totalStockConsumed_m * 2 ∧
      row.totalOrderWeight_kg = 2 := by
  have hbins : best_fit_cutting_stock [⟨"P", 500, 1, 2⟩] 1000 0
      = [⟨500, [⟨"P", 500⟩]⟩] := by
    norm_num [best_fit_cutting_stock, sortItemsDesc, expandItems, placeItem, scanBest, updAt,
      lenGE, List.insertionSort, List.orderedInsert, List.foldl, List.flatMap, List.replicate]
  have hrep : generate_final_report [⟨"P", 500, 1, 2⟩]
      (best_fit_cutting_stock [⟨"P", 500, 1, 2⟩] 1000 0) 1000 0 none
      = some ⟨"P", 1, 1000, 2, 1, 1 / 2, 1 / 2, 2, 1, 1⟩ := by
    rw [hbins]
    norm_num [generate_final_report, effectiveUsageMm, totalDemand]
  have hthm := final_report_weight_propagation ⟨"P", 500, 1, 2⟩ [] _ 1000 0 none _ hrep
  refine ⟨⟨"P", 1, 1000, 2, 1, 1 / 2, 1 / 2, 2, 1, 1⟩, hrep, rfl, rfl, ?_, rfl⟩
  exact (hthm.2.1 (by norm_num)).1

/-- C10 (Non-empty-group precondition): `generate_final_report` reads the first
part's weight-per-meter, so on an empty parts group it fails (modelled as
`none`) instead of returning a zeroed row, while any non-empty group produces a
row. -/
theorem final_report_requires_nonempty_group :
    (∀ (bins : List Bin) (s k : ℚ) (profile : Option String),
        generate_final_report [] bins s k profile = none) ∧
    ∀ (p0 : PartRequest) (rest : List PartRequest) (bins : List Bin) (s k : ℚ)
      (profile : Option String),
      (generate_final_report (p0 :: rest) bins s k profile).isSome :=
  ⟨fun _ _ _ _ => rfl, fun _ _ _ _ _ _ => rfl⟩

end SteelBoy
